import Mathlib

/-!
A verification development for the `GeoScattering` graph-embedding algorithm
(`karateclub/graph_embedding/geoscattering.py`).

The Python code is shallowly embedded over exact rationals `ℚ` (the float
arithmetic of numpy/scipy is modelled by exact field arithmetic).  Graphs are
the data model of the repository: undirected simple graphs on the dense node
range `0..n-1`, given by a node count and a boolean adjacency predicate.

Sparse scipy matrices are modelled as total functions `ℕ → ℕ → ℚ` that vanish
outside the `n × n` block.  The scipy method `A.power(k)` on a sparse matrix is
the ENTRY-WISE power (it raises each entry to the `k`-th power); it is embedded
as `entPow`.  The matrix power by repeated self-multiplication (what the spec
text describes) is embedded separately as `matPow` for comparison.

The natural logarithm `math.log(degree + 1)` used for the first node-feature
column is transcendental, hence not a rational-valued function; the embedding
is parametric in an arbitrary function `lg : ℕ → ℚ` standing for
`d ↦ log (d + 1)`.  All theorems quantify over `lg`, so they hold in
particular for the real logarithm; none of the verified claims depends on the
values of the logarithm.

Python exceptions (`ZeroDivisionError` for a degree-0 node, the networkx error
for eccentricity on a disconnected graph, `AttributeError` for reading the
embedding before `fit`) are modelled by an `Except Err` monad, with the error
names the specification uses.  `numpy` arrays are modelled by their shape and
row-major data (`NDArray`); `np.array` on a list of equal-shaped arrays stacks
them along a new leading axis (`stackArrays`).
-/

namespace KarateClub

/-- A graph of the repository's data model: nodes are `0..n-1`, `adj` is the
adjacency predicate.  (Symmetry/looplessness are not needed by the claims.) -/
structure Graph where
  n : ℕ
  adj : ℕ → ℕ → Bool

/-- Degree of node `v`: the number of neighbours of `v` among `0..n-1`
(`graph.degree[v]` of networkx for a simple graph). -/
def deg (g : Graph) (v : ℕ) : ℕ :=
  ((List.range g.n).filter (fun u => g.adj v u)).length

/-- The error taxonomy of the specification: a degree-0 node while building the
normalized operator, a disconnected graph while computing eccentricity, the
networkx failure on an empty adjacency matrix, and reading the embedding
attribute before `fit` has created it. -/
inductive Err where
  | degreeZero
  | disconnected
  | emptyGraph
  | attributeMissing
  deriving DecidableEq, Repr

/-- Matrices are total functions, zero outside the intended `n × n` block. -/
abbrev Mat := ℕ → ℕ → ℚ

/-- Sum of `f 0 + ... + f (n-1)`; the reduction used by `np.sum` and by
sparse matrix products. -/
def sumRange (n : ℕ) (f : ℕ → ℚ) : ℚ := ((List.range n).map f).sum

/-- Entrywise matrix addition. -/
def matAdd (A B : Mat) : Mat := fun i j => A i j + B i j

/-- Entrywise matrix subtraction (the `-` on scipy sparse matrices). -/
def matSub (A B : Mat) : Mat := fun i j => A i j - B i j

/-- Scalar multiple of a matrix (`0.5 * A_hat`). -/
def matScale (c : ℚ) (A : Mat) : Mat := fun i j => c * A i j

/-- The `n × n` identity matrix (`sparse.identity(n)`). -/
def idMat (n : ℕ) : Mat := fun i j => if i = j ∧ i < n then 1 else 0

/-- Product of two `n × n` matrices (`.dot`). -/
def matMul (n : ℕ) (A B : Mat) : Mat :=
  fun i j => sumRange n (fun k => A i k * B k j)

/-- Matrix power by repeated self-multiplication.  This is what the
specification's `A_hat^(2^k)` notation describes. -/
def matPow (n : ℕ) (A : Mat) : ℕ → Mat
  | 0 => idMat n
  | k + 1 => matMul n (matPow n A k) A

/-- The scipy sparse method `.power(k)`: the ENTRY-WISE `k`-th power. -/
def entPow (A : Mat) (k : ℕ) : Mat := fun i j => A i j ^ k

/-- Matrix-vector product (`psi.dot(x)`). -/
def matVec (n : ℕ) (A : Mat) (x : ℕ → ℚ) : ℕ → ℚ :=
  fun i => sumRange n (fun j => A i j * x j)

/-- The adjacency matrix `nx.adjacency_matrix(graph, nodelist=range(n))`. -/
def adjMat (g : Graph) : Mat :=
  fun i j => if i < g.n ∧ j < g.n ∧ g.adj i j then 1 else 0

/-- The diagonal inverse-degree matrix (the data of `_create_D_inverse` once
every degree is nonzero). -/
def dInvMat (g : Graph) : Mat :=
  fun i j => if i = j ∧ i < g.n then ((deg g i : ℚ))⁻¹ else 0

/-- `GeoScattering._create_D_inverse`: `1.0/graph.degree[node]` raises
`ZeroDivisionError` (the spec's `DegreeZeroError`) when some node has
degree 0; otherwise the diagonal inverse-degree matrix is produced. -/
def createDInverse (g : Graph) : Except Err Mat :=
  if ∃ v ∈ List.range g.n, deg g v = 0 then .error .degreeZero
  else .ok (dInvMat g)

/-- `GeoScattering._get_normalized_adjacency`:
`A_hat = 0.5 * (I + D_inverse.dot(A))`.  `nx.adjacency_matrix` fails on an
empty graph before the degree reciprocal is attempted. -/
def getNormalizedAdjacency (g : Graph) : Except Err Mat :=
  if g.n = 0 then .error .emptyGraph
  else do
    let Dinv ← createDInverse g
    pure (matScale (1/2) (matAdd (idMat g.n) (matMul g.n Dinv (adjMat g))))

/-- `GeoScattering._calculate_wavelets`:
`Psi = [A_hat.power(2**p) - A_hat.power(2**(p+1)) for p in range(order+1)]`,
with `.power` the entry-wise power of scipy sparse matrices. -/
def calculateWavelets (order : ℕ) (Ahat : Mat) : List Mat :=
  (List.range (order + 1)).map
    (fun p => matSub (entPow Ahat (2 ^ p)) (entPow Ahat (2 ^ (p + 1))))

/-- Wavelet bank as the specification words it: `Ψ_k = A_hat^(2^k) − A_hat^(2^(k+1))`
with MATRIX powers computed by repeated sparse self-multiplication.  Stated
from the spec sentence for comparison with `calculateWavelets`. -/
def calculateWaveletsSpec (n order : ℕ) (Ahat : Mat) : List Mat :=
  (List.range (order + 1)).map
    (fun p => matSub (matPow n Ahat (2 ^ p)) (matPow n Ahat (2 ^ (p + 1))))

/-- One breadth-first expansion step: the nodes not yet visited that are
adjacent to the current frontier. -/
def nextLayer (g : Graph) (visited frontier : List ℕ) : List ℕ :=
  (List.range g.n).filter
    (fun u => !(visited.contains u) && frontier.any (fun w => g.adj w u))

/-- Breadth-first search by levels with explicit fuel; returns the set of
reached nodes and the number of levels (the largest finite distance). -/
def bfsReach (g : Graph) : ℕ → List ℕ → List ℕ → ℕ → List ℕ × ℕ
  | 0, visited, _, d => (visited, d)
  | fuel + 1, visited, frontier, d =>
    let next := nextLayer g visited frontier
    if next.isEmpty then (visited, d)
    else bfsReach g fuel (visited ++ next) next (d + 1)

/-- `nx.eccentricity(graph, v)`: the maximum shortest-path distance from `v`;
networkx raises (the spec's `DisconnectedGraphError`) when some node is not
reachable from `v`. -/
def eccentricity (g : Graph) (v : ℕ) : Except Err ℕ :=
  let r := bfsReach g g.n [v] [v] 0
  if r.1.length = g.n then .ok r.2 else .error .disconnected

/-- The neighbour list of `v`. -/
def nbrList (g : Graph) (v : ℕ) : List ℕ :=
  (List.range g.n).filter (fun u => g.adj v u)

/-- `nx.clustering(graph, v)`: the fraction of connected neighbour pairs,
`0` when the degree is at most 1.  The numerator counts ordered adjacent
pairs of neighbours, i.e. twice the triangles through `v`. -/
def clusteringCoeff (g : Graph) (v : ℕ) : ℚ :=
  let nb := nbrList g v
  let d := nb.length
  if d ≤ 1 then 0
  else (((nb.map (fun u => (nb.filter (fun w => g.adj u w)).length)).sum : ℕ) : ℚ)
    / ((d * (d - 1) : ℕ) : ℚ)

/-- Sequential effectful map: the semantics of a Python list comprehension
whose body may raise — it stops at the first raised error, and no list is
produced unless every element succeeds. -/
def mapExcept (f : α → Except Err β) : List α → Except Err (List β)
  | [] => .ok []
  | a :: l => do
    let b ← f a
    let bs ← mapExcept f l
    pure (b :: bs)

/-- `GeoScattering._create_node_feature_matrix`: the three feature columns
log-degree (`lg` abstracts `d ↦ log (d+1)`), eccentricity, and clustering
coefficient.  The eccentricity comprehension raises on a disconnected
graph. -/
def createNodeFeatureMatrix (lg : ℕ → ℚ) (g : Graph) :
    Except Err (List (ℕ → ℚ)) := do
  let eList ← mapExcept (eccentricity g) (List.range g.n)
  pure [fun v => lg (deg g v), fun v => ((eList.getD v 0 : ℕ) : ℚ),
    fun v => clusteringCoeff g v]

/-- `X = np.abs(X)` applied to the list of feature columns. -/
def absCols (X : List (ℕ → ℚ)) : List (ℕ → ℚ) := X.map (fun x v => |x v|)

/-- `Psi[i]` (always in bounds where the code uses it). -/
def psiAt (Psi : List Mat) (i : ℕ) : Mat := Psi.getD i (fun _ _ => 0)

/-- `GeoScattering._get_zero_order_features`: for each column and each
`power in range(1, order+1)` append `sum(x**power)` with `x = np.abs(X[:,col])`. -/
def zeroOrderFeatures (order n : ℕ) (X : List (ℕ → ℚ)) : List ℚ :=
  ((absCols X).map (fun x =>
    (List.range' 1 order).map (fun q => sumRange n (fun v => |x v| ^ q)))).flatten

/-- `GeoScattering._get_first_order_features`: for each column, each wavelet
`psi` in `Psi` and each `q in range(1, moments)` append
`sum(abs(psi.dot(x))**q)`. -/
def firstOrderFeatures (moments n : ℕ) (Psi : List Mat) (X : List (ℕ → ℚ)) :
    List ℚ :=
  ((absCols X).map (fun x =>
    (Psi.map (fun psi =>
      (List.range' 1 (moments - 1)).map (fun q =>
        sumRange n (fun v => |matVec n psi (fun u => |x u|) v| ^ q)))).flatten)).flatten

/-- `GeoScattering._get_second_order_features`: for each column, each
`i in range(order-1)`, each `j in range(i+1, order)` and each
`q in range(1, moments)` append `sum(abs(filtered_x)**q)` for the cascade
`filtered_x = abs(Psi[j].dot(abs(Psi[i].dot(x))))`. -/
def secondOrderFeatures (order moments n : ℕ) (Psi : List Mat)
    (X : List (ℕ → ℚ)) : List ℚ :=
  ((absCols X).map (fun x =>
    ((List.range (order - 1)).map (fun i =>
      ((List.range' (i + 1) (order - 1 - i)).map (fun j =>
        let fx : ℕ → ℚ := fun v =>
          |matVec n (psiAt Psi j) (fun u => |matVec n (psiAt Psi i) (fun w => |x w|) u|) v|
        (List.range' 1 (moments - 1)).map (fun q =>
          sumRange n (fun v => |fx v| ^ q)))).flatten)).flatten)).flatten

/-- A numpy array: its shape and its row-major data. -/
structure NDArray where
  shape : List ℕ
  data : List ℚ
  deriving DecidableEq

/-- `GeoScattering._calculate_geoscattering`: the normalized operator, the
wavelet bank, the node features, then the three moment blocks, each reshaped
to `(1, -1)` and concatenated along axis 1 into one `1 × F` row. -/
def calcGeoscattering (lg : ℕ → ℚ) (order moments : ℕ) (g : Graph) :
    Except Err NDArray := do
  let Ahat ← getNormalizedAdjacency g
  let Psi := calculateWavelets order Ahat
  let X ← createNodeFeatureMatrix lg g
  let z := zeroOrderFeatures order g.n X
  let f1 := firstOrderFeatures moments g.n Psi X
  let f2 := secondOrderFeatures order moments g.n Psi X
  let d := z ++ f1 ++ f2
  pure ⟨[1, d.length], d⟩

/-- `np.array` on a list of equal-shaped arrays: stacks them along a new
leading axis. -/
def stackArrays (l : List NDArray) : NDArray :=
  ⟨l.length :: (l.headD ⟨[], []⟩).shape, (l.map NDArray.data).flatten⟩

/-- The list comprehension inside `GeoScattering.fit`: the per-graph rows in
input order, or the first raised error. -/
def fitList (lg : ℕ → ℚ) (order moments : ℕ) (graphs : List Graph) :
    Except Err (List NDArray) :=
  mapExcept (calcGeoscattering lg order moments) graphs

/-- `GeoScattering.fit` acting on the `_embedding` attribute (modelled as an
`Option`): on success the attribute is assigned, on an exception the
assignment never happens and the previous state is kept. -/
def fitState (lg : ℕ → ℚ) (order moments : ℕ) (graphs : List Graph)
    (s : Option (List NDArray)) : Option (List NDArray) × Option Err :=
  match fitList lg order moments graphs with
  | .ok l => (some l, none)
  | .error e => (s, some e)

/-- The `_embedding` attribute of a freshly constructed `GeoScattering`
instance: `__init__` sets only `order` and `moments`. -/
def initState : Option (List NDArray) := none

/-- `GeoScattering.get_embedding`: `np.array(self._embedding)`; reading the
attribute before any successful `fit` raises `AttributeError`. -/
def getEmbedding (s : Option (List NDArray)) : Except Err NDArray :=
  match s with
  | none => .error .attributeMissing
  | some l => .ok (stackArrays l)

/-- A sequence of `fit` calls on one instance, threading the `_embedding`
attribute. -/
def runFits (lg : ℕ → ℚ) (order moments : ℕ) (batches : List (List Graph))
    (s : Option (List NDArray)) : Option (List NDArray) :=
  batches.foldl (fun st gs => (fitState lg order moments gs st).1) s

/-- `isOkE e` is true when the computation `e` did not raise. -/
def isOkE : Except Err α → Bool
  | .ok _ => true
  | .error _ => false

/-- The zero matrix. -/
def matZero : Mat := fun _ _ => 0

/-- Sum of a list of matrices (for the telescoping property of the wavelet
bank). -/
def matListSum (l : List Mat) : Mat := l.foldr matAdd matZero

/-- One adjacency step as a proposition. -/
def Adj (g : Graph) (a b : ℕ) : Prop := g.adj a b = true

/-- Graph-theoretic reachability: the reflexive-transitive closure of
adjacency.  `¬ Reach g a b` for nodes `a b < n` is what "disconnected"
means. -/
def Reach (g : Graph) : ℕ → ℕ → Prop := Relation.ReflTransGen (Adj g)

/-- The ordered index pairs `(i, j)` with `0 ≤ i < j ≤ order-1`, as the claim
about the second-order block enumerates them. -/
def pairList (order : ℕ) : List (ℕ × ℕ) :=
  ((List.range order).map (fun i =>
    ((List.range order).filter (fun j => i < j)).map (fun j => (i, j)))).flatten

/-- A concrete stand-in for the abstract logarithm column, used by closed
witness statements (no verified claim depends on the logarithm's values). -/
def lg0 : ℕ → ℚ := fun _ => 0

/-- The path graph on 3 nodes, edges 0-1 and 1-2. -/
def P3 : Graph :=
  ⟨3, fun i j => decide ((i + 1 = j ∨ j + 1 = i) ∧ i < 3 ∧ j < 3)⟩

/-- The single-edge graph on 2 nodes. -/
def K2 : Graph := ⟨2, fun i j => decide (i ≠ j ∧ i < 2 ∧ j < 2)⟩

/-- The triangle graph on 3 nodes. -/
def K3 : Graph := ⟨3, fun i j => decide (i ≠ j ∧ i < 3 ∧ j < 3)⟩

/-- Two disjoint edges 0-1 and 2-3: disconnected, every degree is 1. -/
def twoEdges : Graph :=
  ⟨4, fun i j => decide (i / 2 = j / 2 ∧ i ≠ j ∧ i < 4 ∧ j < 4)⟩

/-- A single isolated node: degree 0. -/
def oneIsolated : Graph := ⟨1, fun _ _ => false⟩

/-! ## Helper lemmas -/

theorem sumRange_eq_finset (n : ℕ) (f : ℕ → ℚ) :
    sumRange n f = ∑ i in Finset.range n, f i := rfl

theorem sum_sub_telescope (f : ℕ → ℚ) (o : ℕ) :
    ((List.range (o + 1)).map (fun k => f k - f (k + 1))).sum = f 0 - f (o + 1) := by
  induction o with
  | zero => simp [List.range_succ]
  | succ o ih =>
    rw [List.range_succ, List.map_append, List.sum_append, ih]
    simp

theorem matListSum_apply (l : List Mat) (i j : ℕ) :
    matListSum l i j = (l.map (fun M => M i j)).sum := by
  induction l with
  | nil => rfl
  | cons M l ih => simp [matListSum, matAdd] at ih ⊢; rw [ih]

theorem getD_map_range (f : ℕ → α) (m k : ℕ) (h : k < m) (dflt : α) :
    ((List.range m).map f).getD k dflt = f k := by
  rw [List.getD_eq_getElem?_getD]
  simp [List.getElem?_map, List.getElem?_range, h]

theorem getNormalizedAdjacency_ok (g : Graph) (hn : 0 < g.n)
    (hdeg : ∀ v, v < g.n → deg g v ≠ 0) :
    getNormalizedAdjacency g =
      .ok (matScale (1/2) (matAdd (idMat g.n) (matMul g.n (dInvMat g) (adjMat g)))) := by
  rw [getNormalizedAdjacency, if_neg (Nat.pos_iff_ne_zero.mp hn), createDInverse, if_neg]
  · rfl
  · rintro ⟨v, hv, hd⟩
    exact hdeg v (List.mem_range.mp hv) hd

/-! ## C1: the wavelet bank builder -/

/-- C1 (counterexample): on the normalized operator of the path graph `P3`
with `order = 0`, the wavelet `Ψ_0` the builder returns has entry `(0,0)`
equal to `1/4`, while the matrix-power formula `A_hat^(2^0) − A_hat^(2^1)` of
the claim has entry `(0,0)` equal to `1/8` — the builder uses the entry-wise
power, not the matrix power. -/
theorem claim1_counterexample :
    (getNormalizedAdjacency P3).map (fun Ah => psiAt (calculateWavelets 0 Ah) 0 0 0) =
      .ok (1/4) ∧
    (getNormalizedAdjacency P3).map (fun Ah => psiAt (calculateWaveletsSpec P3.n 0 Ah) 0 0 0) =
      .ok (1/8) ∧
    ((1 : ℚ)/4) ≠ 1/8 := by
  rw [getNormalizedAdjacency_ok P3 (by decide) (by decide)]
  refine ⟨?_, ?_, by norm_num⟩ <;>
    · simp [Except.map, calculateWavelets, calculateWaveletsSpec, psiAt, matSub, entPow,
        matPow, matScale, matAdd, matMul, idMat, dInvMat, adjMat, sumRange, deg, P3,
        List.range_succ]
      norm_num

/-- C1 (amended): the builder returns `order+1` matrices, and for every
`k ≤ order` the `k`-th is `A_hat.^(2^k) − A_hat.^(2^(k+1))` where `.^` is the
ENTRY-WISE power of scipy's `.power`, not the matrix power. -/
theorem claim1_wavelets_entrywise (A : Mat) (o k : ℕ) (hk : k ≤ o) :
    (calculateWavelets o A).length = o + 1 ∧
    ∀ i j, psiAt (calculateWavelets o A) k i j =
      A i j ^ 2 ^ k - A i j ^ 2 ^ (k + 1) := by
  constructor
  · simp [calculateWavelets]
  · intro i j
    rw [calculateWavelets, psiAt, getD_map_range _ _ _ (by omega)]
    rfl

/-- C1 (witness): the amended statement at a concrete matrix, `order = 1`,
`k = 1`. -/
theorem claim1_wavelets_entrywise_witness :
    (calculateWavelets 1 (fun _ _ => (1 : ℚ)/2)).length = 1 + 1 ∧
    psiAt (calculateWavelets 1 (fun _ _ => (1 : ℚ)/2)) 1 0 0 =
      ((1 : ℚ)/2) ^ 2 ^ 1 - ((1 : ℚ)/2) ^ 2 ^ 2 :=
  ⟨(claim1_wavelets_entrywise (fun _ _ => (1 : ℚ)/2) 1 1 (by decide)).1,
   (claim1_wavelets_entrywise (fun _ _ => (1 : ℚ)/2) 1 1 (by decide)).2 0 0⟩

/-! ## C7: the telescoping property of the wavelet bank -/

/-- C7 (counterexample): on the normalized operator of the single-edge graph
`K2` with `order = 0`, the sum of the wavelet bank has entry `(0,0)` equal to
`1/4`, while the claim's matrix-power telescope `A_hat^1 − A_hat^(2^1)` has
entry `(0,0)` equal to `0` (the operator is idempotent as a matrix). -/
theorem claim7_counterexample :
    (getNormalizedAdjacency K2).map (fun Ah => matListSum (calculateWavelets 0 Ah) 0 0) =
      .ok (1/4) ∧
    (getNormalizedAdjacency K2).map
        (fun Ah => matSub (matPow K2.n Ah 1) (matPow K2.n Ah (2 ^ (0 + 1))) 0 0) =
      .ok 0 ∧
    ((1 : ℚ)/4) ≠ 0 := by
  rw [getNormalizedAdjacency_ok K2 (by decide) (by decide)]
  refine ⟨?_, ?_, by norm_num⟩ <;>
    · simp [Except.map, calculateWavelets, matListSum, matZero, matSub, entPow, matPow,
        matScale, matAdd, matMul, idMat, dInvMat, adjMat, sumRange, deg, K2,
        List.range_succ]
      norm_num

/-- C7 (amended): the wavelet bank telescopes with the entry-wise powers the
code computes: for every `A_hat` and `order`,
`Σ_{k=0}^{order} Ψ_k = A_hat.^1 − A_hat.^(2^(order+1))`. -/
theorem claim7_telescoping (o : ℕ) (A : Mat) :
    matListSum (calculateWavelets o A) = matSub (entPow A 1) (entPow A (2 ^ (o + 1))) := by
  funext i j
  rw [matListSum_apply, calculateWavelets, List.map_map]
  have : ((fun M : Mat => M i j) ∘ fun p =>
      matSub (entPow A (2 ^ p)) (entPow A (2 ^ (p + 1)))) =
      fun p => (fun k => A i j ^ 2 ^ k) p - (fun k => A i j ^ 2 ^ k) (p + 1) := rfl
  rw [this, sum_sub_telescope (fun k => A i j ^ 2 ^ k) o]
  simp [matSub, entPow]

/-! ## C5: the zero-order block -/

/-- C5: the zero-order block, for each of the 3 feature columns and each
moment power `q = 1..order` (a range governed by `order`, not `moments`),
appends `Σ_v |x v|^q`; it produces exactly `3*order` scalars and consumes no
wavelet matrix (its arguments are the columns alone). -/
theorem claim5_zero_order (o n : ℕ) (x0 x1 x2 : ℕ → ℚ) :
    zeroOrderFeatures o n [x0, x1, x2] =
      ((List.range' 1 o).map (fun q => sumRange n (fun v => |x0 v| ^ q)) ++
       ((List.range' 1 o).map (fun q => sumRange n (fun v => |x1 v| ^ q)) ++
        (List.range' 1 o).map (fun q => sumRange n (fun v => |x2 v| ^ q)))) ∧
    (zeroOrderFeatures o n [x0, x1, x2]).length = 3 * o := by
  constructor
  · simp [zeroOrderFeatures, absCols, abs_abs]
  · simp [zeroOrderFeatures, absCols]
    omega

/-! ## C6: the normalized operator and its row sums -/

theorem list_indicator_sum (l : List ℕ) (p : ℕ → Bool) :
    (l.map (fun j => if p j then (1 : ℚ) else 0)).sum = ((l.filter p).length : ℚ) := by
  induction l with
  | nil => simp
  | cons a l ih => by_cases h : p a <;> simp [h, ih, add_comm]

theorem adj_row_sum (g : Graph) (v : ℕ) (hv : v < g.n) :
    sumRange g.n (adjMat g v) = (deg g v : ℚ) := by
  rw [sumRange, deg]
  rw [List.map_congr_left (g := fun j => if g.adj v j then (1 : ℚ) else 0) ?_]
  · exact list_indicator_sum _ _
  · intro j hj
    have hj' : j < g.n := List.mem_range.mp hj
    by_cases h : g.adj v j <;> simp [adjMat, h, hv, hj']

/-- C6: for every graph whose nodes all have degree ≥ 1, the operator the code
builds is exactly `A_hat = 0.5 * (I + D⁻¹ A)`, and every row of `A_hat` sums
to exactly 1 (one half from the identity, one half from the row-stochastic
`D⁻¹ A`). -/
theorem claim6_row_sums (g : Graph) (hn : 0 < g.n)
    (hdeg : ∀ v, v < g.n → 1 ≤ deg g v) :
    getNormalizedAdjacency g =
      .ok (matScale (1/2) (matAdd (idMat g.n) (matMul g.n (dInvMat g) (adjMat g)))) ∧
    ∀ v, v < g.n →
      sumRange g.n (matScale (1/2) (matAdd (idMat g.n) (matMul g.n (dInvMat g) (adjMat g))) v) = 1 := by
  constructor
  · exact getNormalizedAdjacency_ok g hn (fun v hv => by have := hdeg v hv; omega)
  · intro v hv
    have hdv : ((deg g v : ℚ)) ≠ 0 := by
      have := hdeg v hv
      exact_mod_cast Nat.pos_iff_ne_zero.mp (by omega)
    have hid : ∑ j in Finset.range g.n, idMat g.n v j = 1 := by
      rw [Finset.sum_congr rfl (g := fun j => if v = j then (1 : ℚ) else 0)
        (fun j _ => by
          by_cases h : v = j
          · subst h; simp [idMat, hv]
          · simp [idMat, h])]
      rw [Finset.sum_ite_eq]
      simp [Finset.mem_range.mpr hv]
    have hdiag : ∀ j, matMul g.n (dInvMat g) (adjMat g) v j =
        ((deg g v : ℚ))⁻¹ * adjMat g v j := by
      intro j
      rw [matMul, sumRange_eq_finset]
      rw [Finset.sum_congr rfl
        (g := fun k => if v = k then ((deg g k : ℚ))⁻¹ * adjMat g k j else 0)
        (fun k _ => by
          by_cases h : v = k
          · subst h; simp [dInvMat, hv]
          · simp [dInvMat, h])]
      rw [Finset.sum_ite_eq]
      simp [Finset.mem_range.mpr hv]
    have hadj : ∑ j in Finset.range g.n, adjMat g v j = (deg g v : ℚ) := by
      rw [← sumRange_eq_finset]
      exact adj_row_sum g v hv
    rw [sumRange_eq_finset]
    simp only [matScale, matAdd, hdiag]
    rw [← Finset.mul_sum, Finset.sum_add_distrib, hid, ← Finset.mul_sum, hadj,
      inv_mul_cancel₀ hdv]
    norm_num

/-- C6 (witness): the single-edge graph `K2` satisfies the degree hypothesis
and its normalized operator has unit row sums. -/
theorem claim6_row_sums_witness :
    (0 < K2.n ∧ ∀ v, v < K2.n → 1 ≤ deg K2 v) ∧
    (getNormalizedAdjacency K2 =
      .ok (matScale (1/2) (matAdd (idMat K2.n) (matMul K2.n (dInvMat K2) (adjMat K2)))) ∧
    ∀ v, v < K2.n →
      sumRange K2.n (matScale (1/2) (matAdd (idMat K2.n) (matMul K2.n (dInvMat K2) (adjMat K2))) v) = 1) :=
  ⟨⟨by decide, by decide⟩, claim6_row_sums K2 (by decide) (by decide)⟩

/-! ## C2: the second-order block -/

theorem range_filter_gt (o i : ℕ) :
    (List.range o).filter (fun j => i < j) = List.range' (i + 1) (o - 1 - i) := by
  induction o with
  | zero =>
    have h0 : 0 - 1 - i = 0 := by omega
    simp [h0]
  | succ o ih =>
    rw [List.range_succ, List.filter_append, ih]
    by_cases h : i < o
    · have h1 : o + 1 - 1 - i = (o - 1 - i) + 1 := by omega
      have h2 : i + 1 + 1 * (o - 1 - i) = o := by omega
      simp only [List.filter_cons, List.filter_nil, decide_eq_true_eq, if_pos h]
      rw [h1, List.range'_concat, h2]
    · have h1 : o - 1 - i = 0 := by omega
      have h2 : o + 1 - 1 - i = 0 := by omega
      simp [List.filter_cons, h, h1, h2]
      omega

theorem flatten_map_flatten (L : List (List β)) (f : β → List γ) :
    ((L.flatten).map f).flatten = (L.map (fun l => ((l.map f).flatten))).flatten := by
  induction L with
  | nil => rfl
  | cons a L ih =>
    simp only [List.flatten_cons, List.map_append, List.flatten_append, List.map_cons, ih]

theorem pair_flatten (Q : ℕ → ℕ → List ℚ) (o : ℕ) :
    ((List.range (o - 1)).map (fun i =>
      ((List.range' (i + 1) (o - 1 - i)).map (fun j => Q i j)).flatten)).flatten =
    ((pairList o).map (fun ij => Q ij.1 ij.2)).flatten := by
  rw [pairList, flatten_map_flatten]
  have hcol : ∀ i, (((List.range o).filter (fun j => i < j)).map (fun j => (i, j))).map
      (fun ij => Q ij.1 ij.2) = (List.range' (i + 1) (o - 1 - i)).map (fun j => Q i j) := by
    intro i
    rw [List.map_map, range_filter_gt]
    rfl
  rw [List.map_map]
  simp only [Function.comp_def, hcol]
  rcases o with _ | s
  · rfl
  · rw [List.range_succ, List.map_append, List.flatten_append]
    have : s + 1 - 1 - s = 0 := by omega
    simp [this]

theorem sum_range_rev_two (k : ℕ) : 2 * (∑ i in Finset.range k, (k - i)) = k * (k + 1) := by
  induction k with
  | zero => rfl
  | succ k ih =>
    rw [Finset.sum_range_succ]
    have hc : ∑ i in Finset.range k, (k + 1 - i) = (∑ i in Finset.range k, (k - i)) + k := by
      rw [Finset.sum_congr rfl (g := fun i => (k - i) + 1)
        (fun i hi => by
          have h5 := Finset.mem_range.mp hi
          show k + 1 - i = k - i + 1
          omega)]
      rw [Finset.sum_add_distrib]
      simp
    rw [hc]
    calc 2 * ((∑ i in Finset.range k, (k - i)) + k + (k + 1 - k))
        = 2 * (∑ i in Finset.range k, (k - i)) + 2 * k + 2 * (k + 1 - k) := by ring
      _ = k * (k + 1) + 2 * k + 2 := by rw [ih]; congr 1; omega
      _ = (k + 1) * (k + 1 + 1) := by ring

theorem list_range_map_sum_nat (f : ℕ → ℕ) (k : ℕ) :
    ((List.range k).map f).sum = ∑ i in Finset.range k, f i := rfl

theorem sum_map_const_nat (l : List α) (c : ℕ) :
    (l.map (fun _ => c)).sum = l.length * c := by
  induction l with
  | nil => simp
  | cons a l ih => simp [ih]; ring

theorem tri_len (o c : ℕ) (Q : ℕ → ℕ → List ℚ) (hQ : ∀ i j, (Q i j).length = c) :
    (((List.range (o - 1)).map (fun i =>
      ((List.range' (i + 1) (o - 1 - i)).map (fun j => Q i j)).flatten)).flatten).length =
    (o * (o - 1) / 2) * c := by
  rw [List.length_flatten, List.map_map]
  have hrow : ∀ i, ((((List.range' (i + 1) (o - 1 - i)).map (fun j => Q i j)).flatten).length) =
      (o - 1 - i) * c := by
    intro i
    rw [List.length_flatten, List.map_map]
    simp only [Function.comp_def]
    rw [List.map_congr_left (g := fun _ => c) (fun j _ => hQ i j)]
    rw [sum_map_const_nat, List.length_range']
  simp only [Function.comp_def, hrow]
  rw [list_range_map_sum_nat, ← Finset.sum_mul]
  have h2 : 2 * (∑ i in Finset.range (o - 1), (o - 1 - i)) = (o - 1) * (o - 1 + 1) :=
    sum_range_rev_two (o - 1)
  have hs : ∑ i in Finset.range (o - 1), (o - 1 - i) = o * (o - 1) / 2 := by
    have e2 : o * (o - 1) = (o - 1) * ((o - 1) + 1) := by
      rcases o with _ | s
      · rfl
      · have e1 : s + 1 - 1 = s := rfl
        rw [e1]
        ring
    rw [e2]
    generalize ht : (o - 1) * ((o - 1) + 1) = t at h2 ⊢
    omega
  rw [hs]

theorem psiAt_take_eq (Psi Psi' : List Mat) (o i : ℕ) (h : Psi.take o = Psi'.take o)
    (hi : i < o) : psiAt Psi i = psiAt Psi' i := by
  rw [psiAt, psiAt, List.getD_eq_getElem?_getD, List.getD_eq_getElem?_getD]
  have h1 : Psi[i]? = (Psi.take o)[i]? := by rw [List.getElem?_take, if_pos hi]
  have h2 : Psi'[i]? = (Psi'.take o)[i]? := by rw [List.getElem?_take, if_pos hi]
  rw [h1, h2, h]

set_option maxHeartbeats 2000000 in
/-- C2: the second-order block iterates exactly over the ordered pairs
`(i, j)` with `0 ≤ i < j ≤ order-1` (so `Ψ_order` is never consumed: the
output only depends on the first `order` wavelets), computes the cascade
`z = |Ψ_j · |Ψ_i · x||` on each (absolute) column, appends `Σ_v |z v|^q` for
each `q = 1..moments-1`, and produces `3 * (order*(order-1)/2) * (moments-1)`
scalars. -/
theorem claim2_second_order (o m n : ℕ) (Psi : List Mat) (x0 x1 x2 : ℕ → ℚ) :
    secondOrderFeatures o m n Psi [x0, x1, x2] =
      (([x0, x1, x2].map (fun x =>
        ((pairList o).map (fun ij =>
          (List.range' 1 (m - 1)).map (fun q =>
            sumRange n (fun v =>
              |(fun w => |matVec n (psiAt Psi ij.2)
                  (fun u => |matVec n (psiAt Psi ij.1) (fun t => |x t|) u|) w|) v| ^ q)))).flatten)).flatten) ∧
    (secondOrderFeatures o m n Psi [x0, x1, x2]).length = 3 * (o * (o - 1) / 2) * (m - 1) ∧
    (∀ Psi' : List Mat, Psi.take o = Psi'.take o →
      secondOrderFeatures o m n Psi [x0, x1, x2] =
        secondOrderFeatures o m n Psi' [x0, x1, x2]) := by
  refine ⟨?_, ?_, ?_⟩
  · have e0 := pair_flatten (fun i j => (List.range' 1 (m - 1)).map (fun q =>
      sumRange n (fun v =>
        |matVec n (psiAt Psi j) (fun u => |matVec n (psiAt Psi i) (fun w => |x0 w|) u|) v| ^ q))) o
    have e1 := pair_flatten (fun i j => (List.range' 1 (m - 1)).map (fun q =>
      sumRange n (fun v =>
        |matVec n (psiAt Psi j) (fun u => |matVec n (psiAt Psi i) (fun w => |x1 w|) u|) v| ^ q))) o
    have e2 := pair_flatten (fun i j => (List.range' 1 (m - 1)).map (fun q =>
      sumRange n (fun v =>
        |matVec n (psiAt Psi j) (fun u => |matVec n (psiAt Psi i) (fun w => |x2 w|) u|) v| ^ q))) o
    simp only [secondOrderFeatures, absCols, List.map_cons, List.map_nil, abs_abs,
      List.flatten_cons, List.flatten_nil]
    rw [e0, e1, e2]
  · have hlen3 : ∀ x : ℕ → ℚ,
        ((((List.range (o - 1)).map (fun i =>
          ((List.range' (i + 1) (o - 1 - i)).map (fun j =>
            (List.range' 1 (m - 1)).map (fun q =>
              sumRange n (fun v =>
                |matVec n (psiAt Psi j)
                    (fun u => |matVec n (psiAt Psi i) (fun t => |x t|) u|) v| ^ q)))).flatten)).flatten).length) =
        (o * (o - 1) / 2) * (m - 1) := by
      intro x
      exact tri_len o (m - 1) _ (fun i j => by simp)
    simp only [secondOrderFeatures, absCols, List.map_cons, List.map_nil, abs_abs,
      List.flatten_cons, List.flatten_nil, List.length_append, List.length_nil]
    rw [hlen3 x0, hlen3 x1, hlen3 x2]
    ring
  · intro Psi' htake
    simp only [secondOrderFeatures]
    congr 1
    apply List.map_congr_left
    intro x _
    congr 1
    apply List.map_congr_left
    intro i hi
    have hio : i < o - 1 := List.mem_range.mp hi
    congr 1
    apply List.map_congr_left
    intro j hj
    obtain ⟨t, ht, rfl⟩ := List.mem_range'.mp hj
    rw [psiAt_take_eq Psi Psi' o i htake (by omega),
      psiAt_take_eq Psi Psi' o (i + 1 + 1 * t) htake (by omega)]

/-! ## C4: the length of the per-graph feature vector -/

theorem zeroOrder_length (o n : ℕ) (X : List (ℕ → ℚ)) :
    (zeroOrderFeatures o n X).length = X.length * o := by
  rw [zeroOrderFeatures, List.length_flatten, List.map_map]
  simp only [Function.comp_def, List.length_map, List.length_range']
  rw [sum_map_const_nat]
  simp [absCols]

theorem firstOrder_length (m n : ℕ) (Psi : List Mat) (X : List (ℕ → ℚ)) :
    (firstOrderFeatures m n Psi X).length = X.length * (Psi.length * (m - 1)) := by
  rw [firstOrderFeatures, List.length_flatten, List.map_map]
  simp only [Function.comp_def, List.length_flatten, List.map_map, List.length_map,
    List.length_range']
  rw [List.map_congr_left (g := fun _ => Psi.length * (m - 1)) (fun x _ => by
    rw [sum_map_const_nat])]
  rw [sum_map_const_nat]
  simp [absCols]

theorem secondOrder_length (o m n : ℕ) (Psi : List Mat) (X : List (ℕ → ℚ)) :
    (secondOrderFeatures o m n Psi X).length = X.length * ((o * (o - 1) / 2) * (m - 1)) := by
  rw [secondOrderFeatures, List.length_flatten, List.map_map]
  simp only [Function.comp_def]
  rw [List.map_congr_left (g := fun _ => (o * (o - 1) / 2) * (m - 1))
    (fun x _ => tri_len o (m - 1) _ (fun i j => by simp))]
  rw [sum_map_const_nat]
  simp [absCols]

theorem calculateWavelets_length (o : ℕ) (A : Mat) :
    (calculateWavelets o A).length = o + 1 := by
  simp [calculateWavelets]

theorem createNodeFeatureMatrix_length (lg : ℕ → ℚ) (g : Graph) (X : List (ℕ → ℚ))
    (h : createNodeFeatureMatrix lg g = .ok X) : X.length = 3 := by
  rw [createNodeFeatureMatrix] at h
  cases hE : mapExcept (eccentricity g) (List.range g.n) with
  | error e => rw [hE] at h; simp [bind, Except.bind] at h
  | ok es =>
    rw [hE] at h
    simp only [bind, Except.bind, pure, Except.pure, Except.ok.injEq] at h
    rw [← h]
    rfl

theorem calcGeo_len (lg : ℕ → ℚ) (O M : ℕ) (g : Graph) (f : NDArray)
    (h : calcGeoscattering lg O M g = .ok f) :
    f.shape = [1, 3 * O + 3 * ((O + 1) * (M - 1)) + 3 * ((O * (O - 1) / 2) * (M - 1))] ∧
    f.data.length = 3 * O + 3 * ((O + 1) * (M - 1)) + 3 * ((O * (O - 1) / 2) * (M - 1)) := by
  rw [calcGeoscattering] at h
  cases hA : getNormalizedAdjacency g with
  | error e => rw [hA] at h; simp [bind, Except.bind] at h
  | ok Ahat =>
    rw [hA] at h
    cases hX : createNodeFeatureMatrix lg g with
    | error e => rw [hX] at h; simp [bind, Except.bind] at h
    | ok X =>
      rw [hX] at h
      simp only [bind, Except.bind, pure, Except.pure, Except.ok.injEq] at h
      have hXlen : X.length = 3 := createNodeFeatureMatrix_length lg g X hX
      have hL : (zeroOrderFeatures O g.n X ++ firstOrderFeatures M g.n (calculateWavelets O Ahat) X ++
          secondOrderFeatures O M g.n (calculateWavelets O Ahat) X).length =
          3 * O + 3 * ((O + 1) * (M - 1)) + 3 * ((O * (O - 1) / 2) * (M - 1)) := by
        rw [List.length_append, List.length_append, zeroOrder_length,
          firstOrder_length, secondOrder_length, calculateWavelets_length, hXlen]
      rw [← h]
      exact ⟨by rw [hL], hL⟩

theorem calcGeo_ok_of (lg : ℕ → ℚ) (O M : ℕ) (g : Graph) (hn : 0 < g.n)
    (hdeg : ∀ v, v < g.n → deg g v ≠ 0) (es : List ℕ)
    (hE : mapExcept (eccentricity g) (List.range g.n) = .ok es) :
    ∃ f, calcGeoscattering lg O M g = .ok f := by
  rw [calcGeoscattering, getNormalizedAdjacency_ok g hn hdeg]
  simp only [bind, Except.bind]
  rw [createNodeFeatureMatrix, hE]
  simp only [bind, Except.bind, pure, Except.pure]
  exact ⟨_, rfl⟩

/-- C4: every per-graph feature vector the pipeline accepts has length exactly
`3*O + 3*(O+1)*(M-1) + 3*(O*(O-1)/2)*(M-1)` (and shape `1 × F`), regardless
of the number of nodes of the graph. -/
theorem claim4_feature_length (lg : ℕ → ℚ) (O M : ℕ) (g : Graph) (f : NDArray)
    (h : calcGeoscattering lg O M g = .ok f) :
    f.data.length = 3 * O + 3 * (O + 1) * (M - 1) + 3 * (O * (O - 1) / 2) * (M - 1) ∧
    f.shape = [1, 3 * O + 3 * (O + 1) * (M - 1) + 3 * (O * (O - 1) / 2) * (M - 1)] := by
  have hl := calcGeo_len lg O M g f h
  have he : 3 * O + 3 * ((O + 1) * (M - 1)) + 3 * ((O * (O - 1) / 2) * (M - 1)) =
      3 * O + 3 * (O + 1) * (M - 1) + 3 * (O * (O - 1) / 2) * (M - 1) := by ring
  exact ⟨by rw [hl.2, he], by rw [hl.1, he]⟩

/-- C4 (witness): the single-edge graph `K2` with `order = 1`, `moments = 2`
is accepted and its row has the predicted length `3 + 6 + 0 = 9`. -/
theorem claim4_feature_length_witness :
    ∃ f, calcGeoscattering lg0 1 2 K2 = .ok f ∧
      f.data.length = 3 * 1 + 3 * (1 + 1) * (2 - 1) + 3 * (1 * (1 - 1) / 2) * (2 - 1) := by
  obtain ⟨f, hf⟩ := calcGeo_ok_of lg0 1 2 K2 (by decide) (by decide) [1, 1] rfl
  exact ⟨f, hf, (claim4_feature_length lg0 1 2 K2 f hf).1⟩

/-! ## C8: fail-fast on a degree-0 node -/

theorem mapExcept_error_prefix (f : α → Except Err β) (e : Err) :
    ∀ (l : List α) (i : ℕ) (h : i < l.length),
      (∀ a ∈ l.take i, isOkE (f a) = true) → f (l.get ⟨i, h⟩) = .error e →
      mapExcept f l = .error e := by
  intro l
  induction l with
  | nil => intro i h; exact absurd h (by simp)
  | cons a l ih =>
    intro i h hpre herr
    cases i with
    | zero =>
      rw [mapExcept]
      rw [List.get] at herr
      rw [herr]
      rfl
    | succ i =>
      have hok : isOkE (f a) = true := hpre a (by simp [List.take_succ_cons])
      cases hfa : f a with
      | error e' => rw [hfa] at hok; simp [isOkE] at hok
      | ok b =>
        rw [mapExcept, hfa]
        have htail : mapExcept f l = .error e := by
          refine ih i (by simpa using h) ?_ ?_
          · intro x hx
            exact hpre x (by simp [List.take_succ_cons, hx])
          · exact herr
        simp only [bind, Except.bind, htail]

theorem getNormalizedAdjacency_degreeZero (g : Graph) (v : ℕ) (hv : v < g.n)
    (hd : deg g v = 0) : getNormalizedAdjacency g = .error .degreeZero := by
  rw [getNormalizedAdjacency, if_neg (by omega), createDInverse,
    if_pos ⟨v, List.mem_range.mpr hv, hd⟩]
  rfl

theorem calcGeo_degreeZero (lg : ℕ → ℚ) (O M : ℕ) (g : Graph) (v : ℕ) (hv : v < g.n)
    (hd : deg g v = 0) : calcGeoscattering lg O M g = .error .degreeZero := by
  rw [calcGeoscattering, getNormalizedAdjacency_degreeZero g v hv hd]
  rfl

/-- C8: if the `i`-th graph of the batch has a degree-0 node while every
earlier graph is processed successfully, the batch raises the degree-zero
error inside the normalized-operator construction of that graph, the whole
`fit` fails with that error, and the `_embedding` attribute is never
assigned (no partial output). -/
theorem claim8_degree_zero (lg : ℕ → ℚ) (O M : ℕ) (gs : List Graph) (i : ℕ)
    (h : i < gs.length)
    (hdeg : ∃ v, v < (gs.get ⟨i, h⟩).n ∧ deg (gs.get ⟨i, h⟩) v = 0)
    (hpre : ∀ g' ∈ gs.take i, isOkE (calcGeoscattering lg O M g') = true) :
    getNormalizedAdjacency (gs.get ⟨i, h⟩) = .error .degreeZero ∧
    calcGeoscattering lg O M (gs.get ⟨i, h⟩) = .error .degreeZero ∧
    fitList lg O M gs = .error .degreeZero ∧
    fitState lg O M gs initState = (none, some .degreeZero) := by
  obtain ⟨v, hv, hd⟩ := hdeg
  have hgeo := calcGeo_degreeZero lg O M (gs.get ⟨i, h⟩) v hv hd
  have hfit : fitList lg O M gs = .error .degreeZero :=
    mapExcept_error_prefix _ _ gs i h hpre hgeo
  exact ⟨getNormalizedAdjacency_degreeZero _ v hv hd, hgeo, hfit,
    by rw [fitState, hfit]; rfl⟩

/-- C8 (witness): a batch whose only graph is a single isolated node fails
with the degree-zero error and produces no embedding. -/
theorem claim8_degree_zero_witness :
    getNormalizedAdjacency oneIsolated = .error .degreeZero ∧
    calcGeoscattering lg0 4 4 oneIsolated = .error .degreeZero ∧
    fitList lg0 4 4 [oneIsolated] = .error .degreeZero ∧
    fitState lg0 4 4 [oneIsolated] initState = (none, some .degreeZero) :=
  claim8_degree_zero lg0 4 4 [oneIsolated] 0 (by decide)
    ⟨0, by decide, by decide⟩ (by simp)

/-! ## C9: fail-fast on a disconnected graph -/

theorem mem_nextLayer (g : Graph) (visited frontier : List ℕ) (u : ℕ) :
    u ∈ nextLayer g visited frontier ↔
      u < g.n ∧ u ∉ visited ∧ ∃ w ∈ frontier, g.adj w u = true := by
  simp [nextLayer, List.mem_filter, List.mem_range, List.contains, and_assoc]

theorem bfsReach_sound (g : Graph) (s : ℕ) :
    ∀ (fuel : ℕ) (visited frontier : List ℕ) (d : ℕ),
      (∀ u ∈ visited, Reach g s u) → (∀ u ∈ frontier, Reach g s u) →
      ∀ u ∈ (bfsReach g fuel visited frontier d).1, Reach g s u := by
  intro fuel
  induction fuel with
  | zero => intro visited frontier d hv _ u hu; exact hv u hu
  | succ fuel ih =>
    intro visited frontier d hv hf u hu
    simp only [bfsReach] at hu
    by_cases hne : (nextLayer g visited frontier).isEmpty
    · rw [if_pos hne] at hu; exact hv u hu
    · rw [if_neg hne] at hu
      refine ih (visited ++ nextLayer g visited frontier) (nextLayer g visited frontier)
        (d + 1) ?_ ?_ u hu
      · intro x hx
        rcases List.mem_append.mp hx with h1 | h2
        · exact hv x h1
        · obtain ⟨_, _, w, hw, hadj⟩ := (mem_nextLayer g visited frontier x).mp h2
          exact Relation.ReflTransGen.tail (hf w hw) hadj
      · intro x hx
        obtain ⟨_, _, w, hw, hadj⟩ := (mem_nextLayer g visited frontier x).mp hx
        exact Relation.ReflTransGen.tail (hf w hw) hadj

theorem bfsReach_bounds (g : Graph) :
    ∀ (fuel : ℕ) (visited frontier : List ℕ) (d : ℕ),
      visited.Nodup → (∀ u ∈ visited, u < g.n) →
      ((bfsReach g fuel visited frontier d).1.Nodup ∧
       ∀ u ∈ (bfsReach g fuel visited frontier d).1, u < g.n) := by
  intro fuel
  induction fuel with
  | zero => intro visited frontier d hnd hlt; exact ⟨hnd, hlt⟩
  | succ fuel ih =>
    intro visited frontier d hnd hlt
    simp only [bfsReach]
    by_cases hne : (nextLayer g visited frontier).isEmpty
    · rw [if_pos hne]; exact ⟨hnd, hlt⟩
    · rw [if_neg hne]
      refine ih _ _ _ ?_ ?_
      · refine List.Nodup.append hnd ?_ ?_
        · exact List.Nodup.filter _ (List.nodup_range g.n)
        · intro x hx1 hx2
          obtain ⟨_, hnotv, _⟩ := (mem_nextLayer g visited frontier x).mp hx2
          exact hnotv hx1
      · intro u hu
        rcases List.mem_append.mp hu with h1 | h2
        · exact hlt u h1
        · exact ((mem_nextLayer g visited frontier u).mp h2).1

theorem eccentricity_error_of_unreachable (g : Graph) (a b : ℕ) (ha : a < g.n)
    (hb : b < g.n) (hnr : ¬ Reach g a b) :
    eccentricity g a = .error .disconnected := by
  have hsingle : ∀ u ∈ [a], Reach g a u := by
    intro u hu
    rw [List.mem_singleton] at hu
    subst hu
    exact Relation.ReflTransGen.refl
  have hsound := bfsReach_sound g a g.n [a] [a] 0 hsingle hsingle
  have hbnd := bfsReach_bounds g g.n [a] [a] 0 (List.nodup_singleton a)
    (by intro u hu; rw [List.mem_singleton] at hu; subst hu; exact ha)
  have hne : ¬ ((bfsReach g g.n [a] [a] 0).1.length = g.n) := by
    intro hlen
    have hsub : (bfsReach g g.n [a] [a] 0).1 ⊆ List.range g.n :=
      fun u hu => List.mem_range.mpr (hbnd.2 u hu)
    have hsp := List.subperm_of_subset hbnd.1 hsub
    have hperm := hsp.perm_of_length_le (by rw [hlen, List.length_range])
    have hbmem : b ∈ (bfsReach g g.n [a] [a] 0).1 :=
      hperm.mem_iff.mpr (List.mem_range.mpr hb)
    exact hnr (hsound b hbmem)
  simp only [eccentricity]
  rw [if_neg hne]

theorem eccentricity_error_eq (g : Graph) (v : ℕ) (e : Err)
    (h : eccentricity g v = .error e) : e = .disconnected := by
  simp only [eccentricity] at h
  by_cases hc : (bfsReach g g.n [v] [v] 0).1.length = g.n
  · rw [if_pos hc] at h; cases h
  · rw [if_neg hc] at h; cases h; rfl

theorem mapExcept_error_of_mem (f : α → Except Err β) (e : Err) :
    ∀ (l : List α) (a : α), a ∈ l → f a = .error e →
      (∀ b ∈ l, ∀ e', f b = .error e' → e' = e) → mapExcept f l = .error e := by
  intro l
  induction l with
  | nil => intro a ha; exact absurd ha (by simp)
  | cons x l ih =>
    intro a ha he hall
    cases hfx : f x with
    | error e' =>
      have : e' = e := hall x (by simp) e' hfx
      subst this
      rw [mapExcept, hfx]
      rfl
    | ok b =>
      rcases List.mem_cons.mp ha with rfl | hmem
      · rw [he] at hfx; cases hfx
      · have htail : mapExcept f l = .error e :=
          ih a hmem he (fun b hb => hall b (List.mem_cons_of_mem x hb))
        rw [mapExcept, hfx]
        simp only [bind, Except.bind, htail]

theorem createNodeFeatureMatrix_disconnected (lg : ℕ → ℚ) (g : Graph)
    (a b : ℕ) (ha : a < g.n) (hb : b < g.n) (hnr : ¬ Reach g a b) :
    createNodeFeatureMatrix lg g = .error .disconnected := by
  have hE : mapExcept (eccentricity g) (List.range g.n) = .error .disconnected :=
    mapExcept_error_of_mem (eccentricity g) .disconnected (List.range g.n) a
      (List.mem_range.mpr ha) (eccentricity_error_of_unreachable g a b ha hb hnr)
      (fun v _ e' h => eccentricity_error_eq g v e' h)
  rw [createNodeFeatureMatrix, hE]
  rfl

theorem calcGeo_disconnected (lg : ℕ → ℚ) (O M : ℕ) (g : Graph)
    (hdeg : ∀ v, v < g.n → deg g v ≠ 0)
    (a b : ℕ) (ha : a < g.n) (hb : b < g.n) (hnr : ¬ Reach g a b) :
    calcGeoscattering lg O M g = .error .disconnected := by
  rw [calcGeoscattering, getNormalizedAdjacency_ok g (by omega) hdeg]
  simp only [bind, Except.bind]
  rw [createNodeFeatureMatrix_disconnected lg g a b ha hb hnr]

/-- C9: if the `i`-th graph of the batch is disconnected (some node `b` is not
reachable from some node `a`) while its degrees are all nonzero and every
earlier graph is processed successfully, node feature extraction raises the
disconnected-graph error at the eccentricity computation, the whole `fit`
fails with that error, and no embedding is assigned. -/
theorem claim9_disconnected (lg : ℕ → ℚ) (O M : ℕ) (gs : List Graph) (i : ℕ)
    (h : i < gs.length) (a b : ℕ)
    (ha : a < (gs.get ⟨i, h⟩).n) (hb : b < (gs.get ⟨i, h⟩).n)
    (hnr : ¬ Reach (gs.get ⟨i, h⟩) a b)
    (hdeg : ∀ v, v < (gs.get ⟨i, h⟩).n → deg (gs.get ⟨i, h⟩) v ≠ 0)
    (hpre : ∀ g' ∈ gs.take i, isOkE (calcGeoscattering lg O M g') = true) :
    createNodeFeatureMatrix lg (gs.get ⟨i, h⟩) = .error .disconnected ∧
    calcGeoscattering lg O M (gs.get ⟨i, h⟩) = .error .disconnected ∧
    fitList lg O M gs = .error .disconnected ∧
    fitState lg O M gs initState = (none, some .disconnected) := by
  have hgeo := calcGeo_disconnected lg O M (gs.get ⟨i, h⟩) hdeg a b ha hb hnr
  have hfit : fitList lg O M gs = .error .disconnected :=
    mapExcept_error_prefix _ _ gs i h hpre hgeo
  exact ⟨createNodeFeatureMatrix_disconnected lg _ a b ha hb hnr, hgeo, hfit,
    by rw [fitState, hfit]; rfl⟩

theorem twoEdges_adj_cases (x y : ℕ) (h : twoEdges.adj x y = true) :
    (x = 0 ∧ y = 1) ∨ (x = 1 ∧ y = 0) ∨ (x = 2 ∧ y = 3) ∨ (x = 3 ∧ y = 2) := by
  simp only [twoEdges, decide_eq_true_eq] at h
  omega

theorem twoEdges_notReach : ¬ Reach twoEdges 0 2 := by
  have aux : ∀ c, Relation.ReflTransGen (Adj twoEdges) 0 c → c = 0 ∨ c = 1 := by
    intro c hc
    induction hc with
    | refl => left; rfl
    | tail hab hbc ih =>
      rcases twoEdges_adj_cases _ _ hbc with ⟨h1, h2⟩ | ⟨h1, h2⟩ | ⟨h1, h2⟩ | ⟨h1, h2⟩ <;>
        omega
  intro h
  rcases aux 2 h with h2 | h2 <;> cases h2

/-- C9 (witness): the batch whose only graph is two disjoint edges (all
degrees 1, disconnected) fails with the disconnected-graph error. -/
theorem claim9_disconnected_witness :
    createNodeFeatureMatrix lg0 twoEdges = .error .disconnected ∧
    calcGeoscattering lg0 4 4 twoEdges = .error .disconnected ∧
    fitList lg0 4 4 [twoEdges] = .error .disconnected ∧
    fitState lg0 4 4 [twoEdges] initState = (none, some .disconnected) :=
  claim9_disconnected lg0 4 4 [twoEdges] 0 (by decide) 0 2 (by decide) (by decide)
    twoEdges_notReach (by decide) (by simp)

/-! ## C10: the embedding attribute exists exactly after a completed fit -/

/-- C10: reading the embedding of a freshly constructed instance raises (the
attribute does not exist), and after any sequence of `fit` calls on a fresh
instance the embedding is defined if and only if some `fit` call completed
successfully. -/
theorem claim10_embedding_defined :
    getEmbedding initState = .error .attributeMissing ∧
    ∀ (lg : ℕ → ℚ) (O M : ℕ) (batches : List (List Graph)),
      ((runFits lg O M batches initState).isSome = true ↔
        ∃ gs ∈ batches, isOkE (fitList lg O M gs) = true) := by
  constructor
  · rfl
  · intro lg O M batches
    have general : ∀ (bs : List (List Graph)) (s : Option (List NDArray)),
        ((runFits lg O M bs s).isSome = true ↔
          s.isSome = true ∨ ∃ gs ∈ bs, isOkE (fitList lg O M gs) = true) := by
      intro bs
      induction bs with
      | nil => intro s; simp [runFits]
      | cons gs bs ih =>
        intro s
        have hstep : runFits lg O M (gs :: bs) s =
            runFits lg O M bs (fitState lg O M gs s).1 := by
          rw [runFits, runFits, List.foldl_cons]
        rw [hstep, ih]
        have hone : ((fitState lg O M gs s).1.isSome = true) ↔
            (s.isSome = true ∨ isOkE (fitList lg O M gs) = true) := by
          cases hfl : fitList lg O M gs with
          | ok l => simp [fitState, hfl, isOkE]
          | error e => simp [fitState, hfl, isOkE]
        rw [hone]
        constructor
        · rintro ((hs | hgs) | ⟨gs', hmem, hok⟩)
          · exact Or.inl hs
          · exact Or.inr ⟨gs, by simp, hgs⟩
          · exact Or.inr ⟨gs', by simp [hmem], hok⟩
        · rintro (hs | ⟨gs', hmem, hok⟩)
          · exact Or.inl (Or.inl hs)
          · rcases List.mem_cons.mp hmem with rfl | hmem'
            · exact Or.inl (Or.inr hok)
            · exact Or.inr ⟨gs', hmem', hok⟩
    rw [general batches initState]
    simp [initState]

/-! ## C3: the stacked embedding and its rows -/

theorem mapExcept_ok_spec (f : α → Except Err β) :
    ∀ (l : List α) (bs : List β), mapExcept f l = .ok bs →
      bs.length = l.length ∧
      ∀ (i : ℕ) (hi : i < l.length) (hi' : i < bs.length),
        f (l.get ⟨i, hi⟩) = .ok (bs.get ⟨i, hi'⟩) := by
  intro l
  induction l with
  | nil =>
    intro bs h
    rw [mapExcept] at h
    cases h
    exact ⟨rfl, fun i hi => absurd hi (by simp)⟩
  | cons a l ih =>
    intro bs h
    rw [mapExcept] at h
    cases hfa : f a with
    | error e => rw [hfa] at h; simp [bind, Except.bind] at h
    | ok b =>
      rw [hfa] at h
      cases hml : mapExcept f l with
      | error e => rw [hml] at h; simp [bind, Except.bind] at h
      | ok bs' =>
        rw [hml] at h
        simp only [bind, Except.bind, pure, Except.pure, Except.ok.injEq] at h
        subst h
        obtain ⟨hlen, hget⟩ := ih bs' hml
        refine ⟨by simp [hlen], ?_⟩
        intro i hi hi'
        cases i with
        | zero => simpa using hfa
        | succ i =>
          have hr := hget i (by simpa using hi) (by simpa using hi')
          simpa using hr

/-- C3 (counterexample): on the one-graph batch `[K2]` with `order = 1`,
`moments = 2`, `get_embedding` returns an array of shape `[1, 1, 9]`:
`np.array` stacks the `G` rows of shape `1 × F` into a `G × 1 × F` array,
not the claimed two-dimensional `G × F` matrix of shape `[1, 9]`. -/
theorem claim3_counterexample :
    (getEmbedding (fitState lg0 1 2 [K2] initState).1).map NDArray.shape = .ok [1, 1, 9] ∧
    ([1, 1, 9] : List ℕ) ≠ [1, 9] := by
  obtain ⟨f, hf⟩ := calcGeo_ok_of lg0 1 2 K2 (by decide) (by decide) [1, 1] rfl
  have hshape : f.shape = [1, 9] := by
    rw [(calcGeo_len lg0 1 2 K2 f hf).1]
  have hfit : fitList lg0 1 2 [K2] = .ok [f] := by
    rw [fitList, mapExcept, hf, mapExcept]
    rfl
  constructor
  · rw [fitState, hfit]
    show (getEmbedding (some [f])).map NDArray.shape = .ok [1, 1, 9]
    rw [getEmbedding]
    simp [stackArrays, Except.map, hshape]
  · decide

/-- C3 (amended): after a successful `fit` the retrievable embedding is the
`np.array` stack of the per-graph rows along a new leading axis — a
`G × 1 × F` array, not a two-dimensional `G × F` matrix — and its `i`-th
block is exactly the feature vector computed from input graph `i` alone
(hence permuting the input collection permutes the blocks identically). -/
theorem claim3_rows (lg : ℕ → ℚ) (O M : ℕ) (gs : List Graph) (l : List NDArray)
    (h : fitList lg O M gs = .ok l) :
    getEmbedding (fitState lg O M gs initState).1 = .ok (stackArrays l) ∧
    (stackArrays l).shape = gs.length :: (l.headD ⟨[], []⟩).shape ∧
    (stackArrays l).data = (l.map NDArray.data).flatten ∧
    l.length = gs.length ∧
    (∀ (i : ℕ) (hi : i < gs.length) (hi' : i < l.length),
      calcGeoscattering lg O M (gs.get ⟨i, hi⟩) = .ok (l.get ⟨i, hi'⟩)) := by
  obtain ⟨hlen, hget⟩ := mapExcept_ok_spec _ gs l h
  refine ⟨?_, ?_, rfl, hlen, hget⟩
  · rw [fitState, h]
    rfl
  · rw [stackArrays, hlen]

/-- C3 (witness): the one-graph batch `[K2]` fits successfully and the
amended description holds for it. -/
theorem claim3_rows_witness :
    ∃ l, fitList lg0 1 2 [K2] = .ok l ∧
      getEmbedding (fitState lg0 1 2 [K2] initState).1 = .ok (stackArrays l) ∧
      l.length = 1 := by
  cases h : fitList lg0 1 2 [K2] with
  | error e =>
    obtain ⟨f, hf⟩ := calcGeo_ok_of lg0 1 2 K2 (by decide) (by decide) [1, 1] rfl
    rw [fitList, mapExcept, hf] at h
    simp [bind, Except.bind, mapExcept, pure, Except.pure] at h
  | ok l =>
    have hc := claim3_rows lg0 1 2 [K2] l h
    exact ⟨l, rfl, hc.1, by rw [hc.2.2.2.1]; rfl⟩

end KarateClub
